import Mathlib

/-!
Verification of the filtering, tree-generation, pagination, escaping and
input-resolution logic of the code-to-pdf generator (src/generate-pdf.cjs).

Paths are modelled as lists of segments relative to the processing root
(`baseDir`).  The filesystem visible to one run is modelled by the `Entry`
tree: a file carries its byte size and the result of binary detection
(`none` models a read error thrown by the detector), a directory carries
the parsed contents of its local `.gitignore` file (an empty list when the
file is absent) together with its children in `readdirSync` order.

The `ignore` npm library is modelled for the pattern fragment the program
relies on: plain names without slashes or wildcards, optionally negated.
A plain name matches a path when some segment equals it, the last matching
rule of a list decides, and a path whose parent directory is ignored stays
ignored (the library follows gitignore semantics: a file cannot be
re-included when a parent directory is excluded).
-/

namespace CodeToPdf

/-- One parsed gitignore rule: a plain name, possibly negated (`!name`). -/
structure IgRule where
  negated : Bool
  pat : String
deriving DecidableEq

/-- A plain-name rule matches a relative path when some segment equals it. -/
def ruleMatches (r : IgRule) (p : List String) : Bool :=
  p.contains r.pat

/-- The decision of the last rule in the list that matches the path, if any
(later rules take precedence, as in the `ignore` library). -/
def lastMatch (rules : List IgRule) (p : List String) : Option Bool :=
  match rules with
  | [] => none
  | r :: rs =>
    match lastMatch rs p with
    | some b => some b
    | none => if ruleMatches r p then some r.negated else none

/-- A path is directly ignored when the last matching rule is not negated. -/
def directIgnored (rules : List IgRule) (p : List String) : Bool :=
  match lastMatch rules p with
  | some b => !b
  | none => false

/-- All prefixes of a segment list, from `[]` up to the list itself. -/
def prefixesList : List String → List (List String)
  | [] => [[]]
  | s :: ss => [] :: (prefixesList ss).map (fun q => s :: q)

/-- `ignores` of one rule set on one relative path: the path is ignored
when it, or any parent directory of it, is directly ignored (the library's
rule that a negation cannot re-include a file whose parent directory is
excluded, unfolded over everything from the first segment to the whole
path). -/
def ignoresPath (rules : List IgRule) (p : List String) : Bool :=
  (prefixesList p).any (fun q => !q.isEmpty && directIgnored rules q)

/-- A filesystem entry: a file (name, byte size, binary-detection result,
`none` for a detector read error) or a directory (name, parsed local
`.gitignore` rules, children in listing order). -/
inductive Entry where
  | file (name : String) (size : Nat) (binaryResult : Option Bool)
  | dir (name : String) (gitignore : List IgRule) (children : List Entry)

/-- The name of an entry. -/
def entryName : Entry → String
  | .file nm _ _ => nm
  | .dir nm _ _ => nm

/-- Resolve a relative path inside an entry (`fs` path lookup). -/
def findEntry : Entry → List String → Option Entry
  | e, [] => some e
  | .file _ _ _, _ :: _ => none
  | .dir _ _ cs, s :: r =>
    match cs.find? (fun c => entryName c == s) with
    | some c => findEntry c r
    | none => none

/-- The default ignore names hard-coded in `shouldIgnore`
(src/generate-pdf.cjs line 286). -/
def defaultIgnoreNames : List String :=
  [".git", "node_modules", "dist", ".vscode", "Cargo.lock", "yarn.lock",
   "package-lock.json", "pnpm-lock.yaml", ".gitignore"]

/-- The default rule set: every default name as a non-negated rule. -/
def defaultRules : List IgRule :=
  defaultIgnoreNames.map (fun nm => { negated := false, pat := nm })

/-- The `.gitignore` rules `getIgnoreForDir` loads for the directory at
path `q` under the root (empty when the directory or file is missing). -/
def dirRulesAt (root : Entry) (q : List String) : List IgRule :=
  match findEntry root q with
  | some (.dir _ gi _) => gi
  | _ => []

/-- `shouldIgnore(filePath, baseDir)` (src/generate-pdf.cjs lines 283-311):
the default rules are checked on the path relative to the root first; then
the walk from the file's parent directory up to the root checks each
directory's own `.gitignore` in isolation on the path relative to that
directory. -/
def shouldIgnore (root : Entry) (p : List String) : Bool :=
  ignoresPath defaultRules p ||
    (prefixesList p.dropLast).any
      (fun q => ignoresPath (dirRulesAt root q) (p.drop q.length))

/-- `isBinaryFile` (src/generate-pdf.cjs lines 314-321): returns the
detector's answer, and `false` when the detector throws (`none`). -/
def isBinaryFile : Option Bool → Bool
  | some b => b
  | none => false

mutual

/-- The body of the `getAllFiles` loop (src/generate-pdf.cjs lines 427-448)
for one directory entry `e` listed inside the directory at path `dp`:
skip when ignored; recurse into directories; skip binary files; keep files
whose size is at most `maxB`. -/
def goEntry (root : Entry) (maxB : Nat) (e : Entry) (dp : List String) :
    List (List String) :=
  if shouldIgnore root (dp ++ [entryName e]) then []
  else
    match e with
    | .file nm sz bn =>
      if isBinaryFile bn then []
      else if sz ≤ maxB then [dp ++ [nm]] else []
    | .dir nm _ cs => goChildren root maxB cs (dp ++ [nm])

/-- `getAllFiles` iterating over the children of one directory, appending
results in listing order. -/
def goChildren (root : Entry) (maxB : Nat) (cs : List Entry)
    (dp : List String) : List (List String) :=
  match cs with
  | [] => []
  | c :: rest => goEntry root maxB c dp ++ goChildren root maxB rest dp

end

/-- `getAllFiles(workDir, workDir, maxFileSize)`: enumerate the root's
children (the root itself is never tested against the filters). -/
def getAllFiles (root : Entry) (maxB : Nat) : List (List String) :=
  match root with
  | .file _ _ _ => []
  | .dir _ _ cs => goChildren root maxB cs []

mutual

/-- One iteration of the `generateDirectoryTree` loop
(src/generate-pdf.cjs lines 355-384) for the entry `e` listed in the
directory at path `dp`, with indentation `pre` and `isLast` true exactly
when the entry is the last one of the raw listing.  `fid` stands for
`generateFileId` (an MD5-derived anchor, kept abstract). -/
def treeEntry (root : Entry) (maxB : Nat) (fid : List String → String)
    (dp : List String) (pre : String) (e : Entry) (isLast : Bool) : String :=
  if shouldIgnore root (dp ++ [entryName e]) then ""
  else
    let connector := if isLast then "+-- " else "|-- "
    match e with
    | .dir nm _ cs =>
      pre ++ connector ++ nm ++ "/\n" ++
        treeChildren root maxB fid (dp ++ [nm])
          (pre ++ (if isLast then "    " else "|   ")) cs
    | .file nm sz bn =>
      if isBinaryFile bn then pre ++ connector ++ nm ++ " (binary, skipped)\n"
      else if sz ≤ maxB then
        pre ++ connector ++ "<a href=\"#" ++ fid (dp ++ [nm]) ++ "\">" ++
          nm ++ "</a>\n"
      else pre ++ connector ++ nm ++ " (too large, skipped)\n"

/-- `generateDirectoryTree` over the children of one directory; an entry is
last exactly when no sibling follows it in the listing. -/
def treeChildren (root : Entry) (maxB : Nat) (fid : List String → String)
    (dp : List String) (pre : String) (cs : List Entry) : String :=
  match cs with
  | [] => ""
  | c :: rest =>
    treeEntry root maxB fid dp pre c rest.isEmpty ++
      treeChildren root maxB fid dp pre rest

end

mutual

/-- Well-formedness of the modelled filesystem: inside every directory the
entry names are pairwise distinct (as the real filesystem guarantees). -/
def wfE : Entry → Bool
  | .file _ _ _ => true
  | .dir _ _ cs => nodupNames cs && wfAll cs

/-- All entries of a list are well-formed. -/
def wfAll : List Entry → Bool
  | [] => true
  | c :: cs => wfE c && wfAll cs

/-- The names of the listed entries are pairwise distinct. -/
def nodupNames : List Entry → Bool
  | [] => true
  | c :: cs => !(cs.any (fun d => entryName d == entryName c)) && nodupNames cs

end

/-- Pagination metadata (`partInfo`, src/generate-pdf.cjs lines 718-724):
1-based chunk number, total chunks, 1-based global start and end file
indices, and the total file count. -/
structure PartInfo where
  current : Nat
  total : Nat
  startFile : Nat
  endFile : Nat
  totalFiles : Nat
deriving DecidableEq

/-- `Math.ceil(totalFiles / filesPerPdf)` for a positive divisor. -/
def numPdfs (totalFiles filesPerPdf : Nat) : Nat :=
  (totalFiles + filesPerPdf - 1) / filesPerPdf

/-- The chunking loop of `generatePDF` (src/generate-pdf.cjs lines 697-725):
chunk `i` is `allFiles.slice(i*filesPerPdf, min((i+1)*filesPerPdf, total))`
and carries pagination metadata exactly when more than one chunk results. -/
def makeChunks {α : Type} (allFiles : List α) (filesPerPdf : Nat) :
    List (List α × Option PartInfo) :=
  let totalFiles := allFiles.length
  let n := numPdfs totalFiles filesPerPdf
  (List.range n).map (fun i =>
    let startIdx := i * filesPerPdf
    let endIdx := min ((i + 1) * filesPerPdf) totalFiles
    ((allFiles.drop startIdx).take (endIdx - startIdx),
     if 1 < n then
       some { current := i + 1, total := n, startFile := startIdx + 1,
              endFile := endIdx, totalFiles := totalFiles }
     else none))

/-- Replace every occurrence of the character `c` by the string `repl`
(one `text.replace(/c/g, repl)` step, for a single-character pattern). -/
def replChar (c : Char) (repl : List Char) : List Char → List Char
  | [] => []
  | x :: xs => (if x = c then repl else [x]) ++ replChar c repl xs

/-- The character class of `escapeLatex`'s second replace: `[#$%&_{}]`. -/
def latexSpecials : List Char :=
  ['#', '$', '%', '&', '_', '\x7b', '\x7d']

/-- `text.replace(/([#$%&_{}])/g, '\\$1')`: prepend a backslash to every
special character. -/
def escSpecials : List Char → List Char
  | [] => []
  | x :: xs => (if x ∈ latexSpecials then ['\\', x] else [x]) ++ escSpecials xs

/-- `escapeLatex` (src/generate-pdf.cjs lines 25-34): the seven replacement
passes in source order. -/
def escapeLatex (s : String) : String :=
  String.mk
    (replChar '|' "\\textbar\x7b\x7d".toList
      (replChar '>' "\\textgreater\x7b\x7d".toList
        (replChar '<' "\\textless\x7b\x7d".toList
          (replChar '~' "\\textasciitilde\x7b\x7d".toList
            (replChar '^' "\\textasciicircum\x7b\x7d".toList
              (escSpecials
                (replChar '\\' "\\textbackslash\x7b\x7d".toList s.toList)))))))

mutual

/-- Scans a character list: `true` when every occurrence of a character of
`sp` is immediately preceded by a backslash (a backslash always escapes the
character that follows it). -/
def noUnescaped (sp : List Char) : List Char → Bool
  | [] => true
  | x :: xs =>
    if x = '\\' then noUnescapedTail sp xs
    else if x ∈ sp then false
    else noUnescaped sp xs

/-- The scan right after a backslash: the next character is escaped and
skipped. -/
def noUnescapedTail (sp : List Char) : List Char → Bool
  | [] => true
  | _ :: ys => noUnescaped sp ys

end

/-- The classification produced by `parseInput`
(src/generate-pdf.cjs lines 226-253). -/
inductive InputType where
  | localPath (p : String)
  | github (repo : String)
deriving DecidableEq

/-- Replace the first (leftmost) occurrence of `pat` in a character list
(JavaScript `s.replace(pat, repl)` with a string pattern replaces only the
first occurrence). -/
def replaceFirstAux (pat repl : List Char) : List Char → List Char
  | [] => []
  | x :: xs =>
    if pat.isPrefixOf (x :: xs) then repl ++ (x :: xs).drop pat.length
    else x :: replaceFirstAux pat repl xs

/-- JavaScript `s.replace(pat, repl)` for a string pattern. -/
def replaceFirst (s pat repl : String) : String :=
  String.mk (replaceFirstAux pat.toList repl.toList s.toList)

/-- Split a character list at every `/` (the segment structure that the
`[^/]+` character classes of the GitHub regexes see). -/
def splitSlash : List Char → List (List Char)
  | [] => [[]]
  | c :: cs =>
    if c = '/' then [] :: splitSlash cs
    else
      match splitSlash cs with
      | [] => [[c]]
      | g :: gs => (c :: g) :: gs

/-- The regex `^([^/]+\/[^/]+)$` (bare `owner/repo`): exactly one slash,
both segments non-empty; the capture is the whole string. -/
def matchOwnerRepo (s : String) : Option String :=
  match splitSlash s.toList with
  | [a, b] => if a ≠ [] ∧ b ≠ [] then some s else none
  | _ => none

/-- The regex `^https:\/\/github\.com\/([^/]+\/[^/]+)$`. -/
def matchHttps (s : String) : Option String :=
  if "https://github.com/".toList.isPrefixOf s.toList then
    matchOwnerRepo
      (String.mk (s.toList.drop "https://github.com/".toList.length))
  else none

/-- The regex `^git@github\.com:([^/]+\/[^/]+)\.git$`. -/
def matchSsh (s : String) : Option String :=
  if "git@github.com:".toList.isPrefixOf s.toList ∧
      ".git".toList.isSuffixOf s.toList then
    let mid := s.toList.drop "git@github.com:".toList.length
    matchOwnerRepo (String.mk (mid.take (mid.length - ".git".toList.length)))
  else none

/-- `parseInput` (src/generate-pdf.cjs lines 226-253): an existing path is
local; otherwise the three GitHub patterns are tried in order and the
match has `.git` removed (first occurrence); otherwise fall back to a
local path.  `existsOnFs` stands for `fs.existsSync`. -/
def parseInput (existsOnFs : String → Bool) (input : String) : InputType :=
  if existsOnFs input then .localPath input
  else
    match matchHttps input with
    | some repo => .github (replaceFirst repo ".git" "")
    | none =>
      match matchSsh input with
      | some repo => .github (replaceFirst repo ".git" "")
      | none =>
        match matchOwnerRepo input with
        | some repo => .github (replaceFirst repo ".git" "")
        | none => .localPath input

/-- Which pipeline the main dispatch selects. -/
inductive Pipeline where
  | latexOut
  | pdfOut
  | errorExit
deriving DecidableEq

/-- `toLowerCase` on the characters of a string (the format values the
dispatch compares against are ASCII). -/
def toLowerStr (s : String) : String :=
  String.mk (s.toList.map Char.toLower)

/-- The format dispatch of the main program (src/generate-pdf.cjs lines
804-819): `args.format?.toLowerCase() || 'pdf'` (an empty string is falsy
and falls back to `'pdf'`), then `latex`/`tex` select the LaTeX emitter,
`pdf` selects the PDF pipeline, and anything else logs
`Unknown format: ...` and exits with code 1. -/
def dispatchFormat (formatArg : String) : Pipeline :=
  let f := if toLowerStr formatArg = "" then "pdf" else toLowerStr formatArg
  if f = "latex" ∨ f = "tex" then .latexOut
  else if f = "pdf" then .pdfOut
  else .errorExit

/-! ### Lemmas about the ignore-rule model -/

theorem mem_prefixesList_iff (x l : List String) :
    x ∈ prefixesList l ↔ ∃ t, x ++ t = l := by
  induction l generalizing x with
  | nil =>
    simp only [prefixesList, List.mem_singleton]
    constructor
    · rintro rfl
      exact ⟨[], rfl⟩
    · rintro ⟨t, ht⟩
      exact (List.append_eq_nil.mp ht).1
  | cons s ss ih =>
    simp only [prefixesList, List.mem_cons, List.mem_map]
    constructor
    · rintro (rfl | ⟨y, hy, rfl⟩)
      · exact ⟨s :: ss, rfl⟩
      · obtain ⟨t, ht⟩ := (ih y).mp hy
        exact ⟨t, by rw [List.cons_append, ht]⟩
    · rintro ⟨t, ht⟩
      cases x with
      | nil => exact Or.inl rfl
      | cons a x2 =>
        rw [List.cons_append] at ht
        injection ht with h1 h2
        subst h1
        exact Or.inr ⟨x2, (ih x2).mpr ⟨t, h2⟩, rfl⟩

theorem ignoresPath_of_direct (rules : List IgRule) (p : List String)
    (hne : p ≠ []) (hd : directIgnored rules p = true) :
    ignoresPath rules p = true := by
  rw [ignoresPath]
  refine List.any_eq_true.mpr ⟨p, (mem_prefixesList_iff p p).mpr ⟨[], by simp⟩, ?_⟩
  rw [hd]
  cases p with
  | nil => exact absurd rfl hne
  | cons a l => rfl

theorem ignoresPath_mono (rules : List IgRule) (q r : List String)
    (h : ignoresPath rules q = true) :
    ignoresPath rules (q ++ r) = true := by
  rw [ignoresPath] at h ⊢
  obtain ⟨q0, hmem, hcond⟩ := List.any_eq_true.mp h
  obtain ⟨t, ht⟩ := (mem_prefixesList_iff q0 q).mp hmem
  refine List.any_eq_true.mpr ⟨q0, ?_, hcond⟩
  exact (mem_prefixesList_iff q0 (q ++ r)).mpr
    ⟨t ++ r, by rw [← List.append_assoc, ht]⟩

theorem lastMatch_mem (rules : List IgRule) (p : List String) (b : Bool)
    (h : lastMatch rules p = some b) :
    ∃ ru ∈ rules, ru.negated = b := by
  induction rules with
  | nil => simp [lastMatch] at h
  | cons r rs ih =>
    rw [lastMatch] at h
    cases hrs : lastMatch rs p with
    | some c =>
      rw [hrs] at h
      simp at h
      subst h
      obtain ⟨ru, hm, he⟩ := ih hrs
      exact ⟨ru, List.mem_cons_of_mem _ hm, he⟩
    | none =>
      rw [hrs] at h
      by_cases hm : ruleMatches r p = true
      · simp [hm] at h
        exact ⟨r, List.mem_cons_self _ _, h⟩
      · simp [hm] at h

theorem lastMatch_isSome_of_match (rules : List IgRule) (p : List String)
    (h : ∃ ru ∈ rules, ruleMatches ru p = true) :
    lastMatch rules p ≠ none := by
  induction rules with
  | nil => simp at h
  | cons r rs ih =>
    rw [lastMatch]
    cases hrs : lastMatch rs p with
    | some c => simp
    | none =>
      obtain ⟨ru, hmem, hm⟩ := h
      rcases List.mem_cons.mp hmem with hru | hru
      · subst hru
        simp [hm]
      · exact absurd hrs (ih ⟨ru, hru, hm⟩)

theorem directIgnored_of_pos_match (rules : List IgRule) (p : List String)
    (hpos : ∀ ru ∈ rules, ru.negated = false)
    (h : ∃ ru ∈ rules, ruleMatches ru p = true) :
    directIgnored rules p = true := by
  rw [directIgnored]
  cases hl : lastMatch rules p with
  | none => exact absurd hl (lastMatch_isSome_of_match rules p h)
  | some b =>
    obtain ⟨ru, hmem, he⟩ := lastMatch_mem rules p b hl
    rw [← he, hpos ru hmem]
    rfl

theorem ignoresPath_defaults_of_seg (p : List String) (s : String)
    (hs : s ∈ p) (hn : s ∈ defaultIgnoreNames) :
    ignoresPath defaultRules p = true := by
  have hne : p ≠ [] := List.ne_nil_of_mem hs
  apply ignoresPath_of_direct defaultRules p hne
  · apply directIgnored_of_pos_match
    · intro ru hru
      simp only [defaultRules, List.mem_map] at hru
      obtain ⟨nm, _, he⟩ := hru
      rw [← he]
    · refine ⟨{ negated := false, pat := s }, ?_, ?_⟩
      · simp only [defaultRules, List.mem_map]
        exact ⟨s, hn, rfl⟩
      · show ruleMatches { negated := false, pat := s } p = true
        rw [ruleMatches]
        exact List.contains_iff_exists_mem_beq.mpr ⟨s, hs, by simp⟩

/-- Core of C2 and C9: any path with a segment among the default names is
ignored, whatever the `.gitignore` contents in the tree are. -/
theorem shouldIgnore_of_default_seg (root : Entry) (p : List String)
    (s : String) (hs : s ∈ p) (hn : s ∈ defaultIgnoreNames) :
    shouldIgnore root p = true := by
  rw [shouldIgnore, ignoresPath_defaults_of_seg p s hs hn]
  rfl

theorem dropLast_append_decomp (q r : List String) :
    ∃ t, (q ++ r).dropLast = q.dropLast ++ t := by
  cases hr : r with
  | nil => exact ⟨[], by simp⟩
  | cons b r2 =>
    rw [List.dropLast_append_cons]
    cases hq : q with
    | nil => exact ⟨(b :: r2).dropLast, by simp⟩
    | cons a q2 =>
      refine ⟨[(a :: q2).getLast (by simp)] ++ (b :: r2).dropLast, ?_⟩
      rw [← List.append_assoc, List.dropLast_concat_getLast]

theorem shouldIgnore_mono (root : Entry) (q r : List String)
    (h : shouldIgnore root q = true) :
    shouldIgnore root (q ++ r) = true := by
  rw [shouldIgnore] at h ⊢
  rcases Bool.or_eq_true_iff.mp h with h1 | h2
  · rw [ignoresPath_mono defaultRules q r h1]
    rfl
  · obtain ⟨x, hx, hig⟩ := List.any_eq_true.mp h2
    obtain ⟨t1, ht1⟩ := (mem_prefixesList_iff x q.dropLast).mp hx
    obtain ⟨t2, ht2⟩ := dropLast_append_decomp q r
    have hxq : ∃ u, q = x ++ u := by
      cases hq : q with
      | nil =>
        simp [hq] at ht1
        exact ⟨[], by simp [ht1.1]⟩
      | cons a q2 =>
        refine ⟨t1 ++ [(a :: q2).getLast (by simp)], ?_⟩
        rw [← List.append_assoc, ht1, hq, List.dropLast_concat_getLast]
    obtain ⟨u, hu⟩ := hxq
    have hmem2 : x ∈ prefixesList ((q ++ r).dropLast) := by
      rw [mem_prefixesList_iff]
      exact ⟨t1 ++ t2, by rw [← List.append_assoc, ht1, ht2]⟩
    have hdrop : (q ++ r).drop x.length = q.drop x.length ++ r := by
      rw [hu, List.append_assoc, List.drop_left' rfl, List.drop_left' rfl]
    refine Or.inr ?_ |> Bool.or_eq_true_iff.mpr
    refine List.any_eq_true.mpr ⟨x, hmem2, ?_⟩
    rw [hdrop]
    exact ignoresPath_mono _ _ _ hig

/-! ### Lemmas about the file enumeration -/

theorem find?_of_nodupNames (cs : List Entry) (c : Entry)
    (hnd : nodupNames cs = true) (hc : c ∈ cs) :
    cs.find? (fun d => entryName d == entryName c) = some c := by
  induction cs with
  | nil => simp at hc
  | cons d ds ih =>
    rw [nodupNames, Bool.and_eq_true] at hnd
    rcases List.mem_cons.mp hc with rfl | hc2
    · simp [List.find?]
    · have hne : (entryName d == entryName c) = false := by
        rw [beq_eq_false_iff_ne]
        intro he
        have : ds.any (fun e => entryName e == entryName d) = true :=
          List.any_eq_true.mpr ⟨c, hc2, by simp [he]⟩
        simp [this] at hnd
      rw [List.find?]
      simp only [hne]
      exact ih hnd.2 hc2

theorem mem_goChildren_of (root : Entry) (maxB : Nat) (cs : List Entry)
    (c : Entry) (dp x : List String) (hc : c ∈ cs)
    (hx : x ∈ goEntry root maxB c dp) :
    x ∈ goChildren root maxB cs dp := by
  induction cs with
  | nil => simp at hc
  | cons d ds ih =>
    rw [goChildren]
    rcases List.mem_cons.mp hc with rfl | hc2
    · exact List.mem_append_left _ hx
    · exact List.mem_append_right _ (ih hc2)

mutual

theorem goEntry_sound (root : Entry) (maxB : Nat) (e : Entry)
    (dp p : List String) (hwf : wfE e = true)
    (hp : p ∈ goEntry root maxB e dp) :
    ∃ suf nm sz bn, p = dp ++ entryName e :: suf ∧
      findEntry e suf = some (Entry.file nm sz bn) ∧
      shouldIgnore root p = false ∧ isBinaryFile bn = false ∧ sz ≤ maxB := by
  rw [goEntry.eq_def] at hp
  by_cases hig : shouldIgnore root (dp ++ [entryName e]) = true
  · simp [hig] at hp
  · rw [Bool.not_eq_true] at hig
    simp only [hig] at hp
    cases e with
    | file nm sz bn =>
      simp only [Bool.false_eq_true, if_false] at hp
      by_cases hbn : isBinaryFile bn = true
      · simp [hbn] at hp
      · rw [Bool.not_eq_true] at hbn
        simp only [hbn, Bool.false_eq_true, if_false] at hp
        by_cases hsz : sz ≤ maxB
        · simp only [if_pos hsz, List.mem_singleton] at hp
          exact ⟨[], nm, sz, bn, by simpa using hp, by rw [findEntry],
            by rw [hp]; exact hig, hbn, hsz⟩
        · simp [hsz] at hp
    | dir nm gi cs =>
      simp only [Bool.false_eq_true, if_false] at hp
      rw [wfE, Bool.and_eq_true] at hwf
      obtain ⟨s, suf, nm2, sz, bn, hps, hfind, hig2, hbn, hsz⟩ :=
        goChildren_sound root maxB cs (dp ++ [nm]) p hwf.2 hwf.1 hp
      refine ⟨s :: suf, nm2, sz, bn, by simpa using hps, ?_, hig2, hbn, hsz⟩
      rw [findEntry]
      exact hfind

theorem goChildren_sound (root : Entry) (maxB : Nat) (cs : List Entry)
    (dp p : List String) (hwf : wfAll cs = true)
    (hnd : nodupNames cs = true) (hp : p ∈ goChildren root maxB cs dp) :
    ∃ s suf nm sz bn, p = dp ++ s :: suf ∧
      (match cs.find? (fun c => entryName c == s) with
       | some c => findEntry c suf
       | none => none) = some (Entry.file nm sz bn) ∧
      shouldIgnore root p = false ∧ isBinaryFile bn = false ∧
      sz ≤ maxB := by
  match cs with
  | [] =>
    rw [goChildren] at hp
    simp at hp
  | c :: rest =>
    rw [goChildren] at hp
    rw [wfAll, Bool.and_eq_true] at hwf
    rcases List.mem_append.mp hp with hp1 | hp2
    · obtain ⟨suf, nm, sz, bn, hps, hfind, hig, hbn, hsz⟩ :=
        goEntry_sound root maxB c dp p hwf.1 hp1
      refine ⟨entryName c, suf, nm, sz, bn, hps, ?_, hig, hbn, hsz⟩
      rw [find?_of_nodupNames (c :: rest) c hnd (List.mem_cons_self _ _)]
      exact hfind
    · rw [nodupNames, Bool.and_eq_true] at hnd
      obtain ⟨s, suf, nm, sz, bn, hps, hfind, hig, hbn, hsz⟩ :=
        goChildren_sound root maxB rest dp p hwf.2 hnd.2 hp2
      refine ⟨s, suf, nm, sz, bn, hps, ?_, hig, hbn, hsz⟩
      cases hf : rest.find? (fun d => entryName d == s) with
      | none => rw [hf] at hfind; exact absurd hfind (by simp)
      | some c2 =>
        rw [hf] at hfind
        have hc2 : c2 ∈ rest := List.mem_of_find?_eq_some hf
        have hs2 : entryName c2 = s := by
          have := List.find?_some hf
          exact eq_of_beq this
        have hne : (entryName c == s) = false := by
          rw [beq_eq_false_iff_ne]
          intro he
          have : rest.any (fun e => entryName e == entryName c) = true :=
            List.any_eq_true.mpr ⟨c2, hc2, by simp [hs2, he]⟩
          simp [this] at hnd
        rw [List.find?]
        simp only [hne]
        rw [hf]
        exact hfind

end

mutual

theorem goEntry_notIgnored (root : Entry) (maxB : Nat) (e : Entry)
    (dp p : List String) (hp : p ∈ goEntry root maxB e dp) :
    shouldIgnore root p = false := by
  rw [goEntry.eq_def] at hp
  by_cases hig : shouldIgnore root (dp ++ [entryName e]) = true
  · simp [hig] at hp
  · rw [Bool.not_eq_true] at hig
    simp only [hig] at hp
    cases e with
    | file nm sz bn =>
      simp only [Bool.false_eq_true, if_false] at hp
      by_cases hbn : isBinaryFile bn = true
      · simp [hbn] at hp
      · rw [Bool.not_eq_true] at hbn
        simp only [hbn, Bool.false_eq_true, if_false] at hp
        by_cases hsz : sz ≤ maxB
        · simp only [if_pos hsz, List.mem_singleton] at hp
          rw [hp]
          exact hig
        · simp [hsz] at hp
    | dir nm gi cs =>
      simp only [Bool.false_eq_true, if_false] at hp
      exact goChildren_notIgnored root maxB cs (dp ++ [nm]) p hp

theorem goChildren_notIgnored (root : Entry) (maxB : Nat) (cs : List Entry)
    (dp p : List String) (hp : p ∈ goChildren root maxB cs dp) :
    shouldIgnore root p = false := by
  match cs with
  | [] =>
    rw [goChildren] at hp
    simp at hp
  | c :: rest =>
    rw [goChildren] at hp
    rcases List.mem_append.mp hp with hp1 | hp2
    · exact goEntry_notIgnored root maxB c dp p hp1
    · exact goChildren_notIgnored root maxB rest dp p hp2

end

/-- Every enumerated path is not ignored (no well-formedness needed): the
loop only pushes a path after `shouldIgnore` returned false for it, and
never descends into an ignored directory. -/
theorem getAllFiles_notIgnored (root : Entry) (maxB : Nat)
    (p : List String) (hp : p ∈ getAllFiles root maxB) :
    shouldIgnore root p = false := by
  rw [getAllFiles.eq_def] at hp
  cases root with
  | file nm sz bn => simp at hp
  | dir nm gi cs => exact goChildren_notIgnored _ maxB cs [] p hp

theorem goEntry_complete (root : Entry) (maxB : Nat) (e : Entry)
    (dp suf : List String) (nm : String) (sz : Nat) (bn : Option Bool)
    (hf : findEntry e suf = some (Entry.file nm sz bn))
    (hig : shouldIgnore root (dp ++ entryName e :: suf) = false)
    (hbn : isBinaryFile bn = false) (hsz : sz ≤ maxB) :
    dp ++ entryName e :: suf ∈ goEntry root maxB e dp := by
  cases e with
  | file nm0 sz0 bn0 =>
    cases suf with
    | cons s r => rw [findEntry] at hf; exact absurd hf (by simp)
    | nil =>
      rw [findEntry] at hf
      injection hf with hf2
      injection hf2 with h1 h2 h3
      subst h1; subst h2; subst h3
      rw [goEntry]
      simp only [entryName] at hig ⊢
      simp [hig, hbn, hsz]
  | dir nm0 gi cs =>
    cases suf with
    | nil => rw [findEntry] at hf; exact absurd hf (by simp)
    | cons s r =>
      rw [findEntry] at hf
      cases hfind : cs.find? (fun c => entryName c == s) with
      | none => rw [hfind] at hf; exact absurd hf (by simp)
      | some c =>
        rw [hfind] at hf
        have hc : c ∈ cs := List.mem_of_find?_eq_some hfind
        have hsb := List.find?_some hfind
        have hs : entryName c = s := by simpa using hsb
        have hig0 : shouldIgnore root (dp ++ [entryName (Entry.dir nm0 gi cs)]) = false := by
          rw [Bool.eq_false_iff]
          intro habs
          have := shouldIgnore_mono root (dp ++ [nm0]) (s :: r)
            (by simpa [entryName] using habs)
          rw [List.append_assoc] at this
          simp only [entryName] at hig
          simp only [List.cons_append, List.nil_append] at this
          rw [this] at hig
          exact absurd hig (by simp)
        rw [goEntry]
        rw [hig0]
        simp only [Bool.false_eq_true, if_false]
        have hmem : (dp ++ [nm0]) ++ entryName c :: r ∈
            goEntry root maxB c (dp ++ [nm0]) := by
          apply goEntry_complete root maxB c (dp ++ [nm0]) r nm sz bn hf
          · rw [hs]
            simp only [entryName] at hig
            rw [List.append_assoc]
            simpa using hig
          · exact hbn
          · exact hsz
        have := mem_goChildren_of root maxB cs c (dp ++ [nm0]) _ hc hmem
        simp only [entryName]
        rw [hs] at this
        simpa using this

/-- Completeness of `getAllFiles`: a non-root file entry that is not
ignored, not detected binary and small enough is enumerated. -/
theorem getAllFiles_complete (root : Entry) (maxB : Nat)
    (p : List String) (nm : String) (sz : Nat) (bn : Option Bool)
    (hne : p ≠ []) (hf : findEntry root p = some (Entry.file nm sz bn))
    (hig : shouldIgnore root p = false)
    (hbn : isBinaryFile bn = false) (hsz : sz ≤ maxB) :
    p ∈ getAllFiles root maxB := by
  cases root with
  | file nm0 sz0 bn0 =>
    cases p with
    | nil => exact absurd rfl hne
    | cons s r => rw [findEntry] at hf; exact absurd hf (by simp)
  | dir nm0 gi cs =>
    cases p with
    | nil => exact absurd rfl hne
    | cons s r =>
      rw [findEntry] at hf
      cases hfind : cs.find? (fun c => entryName c == s) with
      | none => rw [hfind] at hf; exact absurd hf (by simp)
      | some c =>
        rw [hfind] at hf
        have hc : c ∈ cs := List.mem_of_find?_eq_some hfind
        have hsb := List.find?_some hfind
        have hs : entryName c = s := by simpa using hsb
        have hmem : [] ++ entryName c :: r ∈
            goEntry (Entry.dir nm0 gi cs) maxB c [] := by
          apply goEntry_complete (Entry.dir nm0 gi cs) maxB c [] r nm sz bn hf
          · rw [hs]
            simpa using hig
          · exact hbn
          · exact hsz
        rw [getAllFiles]
        have := mem_goChildren_of (Entry.dir nm0 gi cs) maxB cs c [] _ hc hmem
        rw [hs] at this
        simpa using this

/-! ### Concrete fixtures for witnesses and counterexamples -/

/-- A small well-formed tree: a plain file, and a subdirectory whose local
`.gitignore` excludes one of its two files. -/
def sampleRoot : Entry :=
  .dir "" []
    [.file "a.txt" 10 (some false),
     .dir "sub" [⟨false, "sec.txt"⟩]
       [.file "sec.txt" 1 (some false), .file "ok.txt" 2 (some false)]]

/-- A root whose own `.gitignore` even tries to negate a default name. -/
def negRoot : Entry :=
  .dir "" [⟨true, "node_modules"⟩]
    [.dir "node_modules" [] [.file "x.js" 1 (some false)]]

/-- Nested-negation fixture: the root `.gitignore` has the broad rule
`a.log`, the nearer `sub/.gitignore` has the negation `!a.log`. -/
def c3root : Entry :=
  .dir "" [⟨false, "a.log"⟩]
    [.dir "sub" [⟨true, "a.log"⟩] [.file "a.log" 5 (some false)]]

/-- A root with one file on which binary detection throws. -/
def errRoot : Entry :=
  .dir "" [] [.file "err.txt" 3 none]

/-! ### C1: membership in the enumeration -/

/-- C1: for a well-formed tree, a path is in the list returned by
`getAllFiles` exactly when it names a file under the root that is not
ignored by the gitignore resolver, whose binary detection returned false,
and whose byte size is at most `maxB`. -/
theorem getAllFiles_mem_iff (root : Entry) (maxB : Nat) (p : List String)
    (hwf : wfE root = true) :
    p ∈ getAllFiles root maxB ↔
      ∃ nm sz bn, p ≠ [] ∧ findEntry root p = some (Entry.file nm sz bn) ∧
        shouldIgnore root p = false ∧ isBinaryFile bn = false ∧
        sz ≤ maxB := by
  constructor
  · intro hp
    cases root with
    | file nm0 sz0 bn0 =>
      rw [getAllFiles] at hp
      simp at hp
    | dir nm0 gi cs =>
      rw [getAllFiles] at hp
      rw [wfE, Bool.and_eq_true] at hwf
      obtain ⟨s, suf, nm, sz, bn, hps, hfind, hig, hbn, hsz⟩ :=
        goChildren_sound _ maxB cs [] p hwf.2 hwf.1 hp
      refine ⟨nm, sz, bn, by simp [hps], ?_, hig, hbn, hsz⟩
      rw [hps]
      simp only [List.nil_append]
      rw [findEntry]
      exact hfind
  · rintro ⟨nm, sz, bn, hne, hf, hig, hbn, hsz⟩
    exact getAllFiles_complete root maxB p nm sz bn hne hf hig hbn hsz

/-- Witness for C1 at a concrete well-formed tree. -/
theorem getAllFiles_mem_iff_witness :
    (["sub", "ok.txt"] ∈ getAllFiles sampleRoot 100 ↔
      ∃ nm sz bn, (["sub", "ok.txt"] : List String) ≠ [] ∧
        findEntry sampleRoot ["sub", "ok.txt"] =
          some (Entry.file nm sz bn) ∧
        shouldIgnore sampleRoot ["sub", "ok.txt"] = false ∧
        isBinaryFile bn = false ∧ sz ≤ 100) :=
  getAllFiles_mem_iff sampleRoot 100 ["sub", "ok.txt"] (by decide)

/-! ### C2: the hard-coded default ignore set is authoritative -/

/-- C2: a path with a segment among the default-ignored names is reported
ignored whatever the `.gitignore` files in the tree contain (the default
instance is consulted first and no directory-local negation is able to
re-include such a path). -/
theorem shouldIgnore_default_names (root : Entry) (p : List String)
    (h : ∃ s ∈ p, s ∈ defaultIgnoreNames) :
    shouldIgnore root p = true := by
  obtain ⟨s, hs, hn⟩ := h
  exact shouldIgnore_of_default_seg root p s hs hn

/-- Witness for C2: `node_modules/x.js` stays ignored even though the
root `.gitignore` contains the negation `!node_modules`. -/
theorem shouldIgnore_default_names_witness :
    shouldIgnore negRoot ["node_modules", "x.js"] = true :=
  shouldIgnore_default_names negRoot ["node_modules", "x.js"]
    ⟨"node_modules", by decide, by decide⟩

/-! ### C3: nested `.gitignore` negation does not re-include -/

/-- C3 counterexample: in `c3root` the root `.gitignore` excludes
`sub/a.log` (first conjunct), the nearer `sub/.gitignore` taken on its own
re-includes it (second conjunct), yet `shouldIgnore` returns `true`, not
`false` as the claim states: each directory's rules are evaluated in
isolation and any ancestor match wins. -/
theorem shouldIgnore_nested_negation_cex :
    ignoresPath (dirRulesAt c3root []) ["sub", "a.log"] = true ∧
    ignoresPath (dirRulesAt c3root ["sub"]) ["a.log"] = false ∧
    shouldIgnore c3root ["sub", "a.log"] = true := by decide

/-- C3 amended: whenever any single ancestor directory's `.gitignore`,
evaluated in isolation on the path relative to that directory, matches the
file, `shouldIgnore` returns true — so a negation in a nearer
`.gitignore` file never overrides an ancestor's exclusion. -/
theorem shouldIgnore_of_ancestor_match (root : Entry) (p q : List String)
    (hq : q ∈ prefixesList p.dropLast)
    (hig : ignoresPath (dirRulesAt root q) (p.drop q.length) = true) :
    shouldIgnore root p = true := by
  rw [shouldIgnore]
  refine Bool.or_eq_true_iff.mpr (Or.inr ?_)
  exact List.any_eq_true.mpr ⟨q, hq, hig⟩

/-- Witness for the amended C3 on the nested-negation fixture. -/
theorem shouldIgnore_of_ancestor_match_witness :
    shouldIgnore c3root ["sub", "a.log"] = true :=
  shouldIgnore_of_ancestor_match c3root ["sub", "a.log"] []
    (by decide) (by decide)

/-! ### C7: a binary-detection read error fails open -/

/-- C7: when binary detection throws (`none`), the file is classified as
text, and an otherwise eligible unreadable file is still enumerated — the
error branch returns `false` instead of propagating. -/
theorem readError_not_dropped (root : Entry) (maxB : Nat)
    (p : List String) (nm : String) (sz : Nat) (hne : p ≠ [])
    (hf : findEntry root p = some (Entry.file nm sz none))
    (hig : shouldIgnore root p = false) (hsz : sz ≤ maxB) :
    isBinaryFile none = false ∧ p ∈ getAllFiles root maxB :=
  ⟨rfl, getAllFiles_complete root maxB p nm sz none hne hf hig rfl hsz⟩

/-- Witness for C7: the unreadable `err.txt` is listed. -/
theorem readError_not_dropped_witness :
    isBinaryFile none = false ∧ ["err.txt"] ∈ getAllFiles errRoot 100 :=
  readError_not_dropped errRoot 100 ["err.txt"] "err.txt" 3
    (by decide) rfl (by decide) (by decide)

/-! ### C9: `.gitignore` itself is always excluded -/

/-- C9: an entry named `.gitignore` is in the hard-coded default set, so
no enumerated path contains that segment and the tree generator emits no
line for such an entry. -/
theorem gitignore_always_excluded :
    (∀ (root : Entry) (maxB : Nat) (p : List String),
      p ∈ getAllFiles root maxB → ".gitignore" ∉ p) ∧
    (∀ (root : Entry) (maxB : Nat) (fid : List String → String)
      (dp : List String) (pre : String) (e : Entry) (isLast : Bool),
      entryName e = ".gitignore" →
      treeEntry root maxB fid dp pre e isLast = "") := by
  constructor
  · intro root maxB p hp hmem
    have h1 := getAllFiles_notIgnored root maxB p hp
    have h2 := shouldIgnore_of_default_seg root p ".gitignore" hmem (by decide)
    rw [h1] at h2
    exact absurd h2 (by simp)
  · intro root maxB fid dp pre e isLast hnm
    have h2 := shouldIgnore_of_default_seg root (dp ++ [entryName e])
      ".gitignore" (by simp [hnm]) (by decide)
    rw [treeEntry.eq_def, h2]
    rfl

/-- Witness for C9: no tree line for a `.gitignore` file entry. -/
theorem gitignore_always_excluded_witness :
    treeEntry errRoot 100 (fun _ => "x") [] ""
      (Entry.file ".gitignore" 1 (some false)) true = "" :=
  gitignore_always_excluded.2 errRoot 100 (fun _ => "x") [] ""
    (Entry.file ".gitignore" 1 (some false)) true rfl

/-! ### C4: pagination -/

theorem chunk_take_collapse {α : Type} (l : List α) (c i : Nat) :
    (l.drop (i * c)).take (min ((i + 1) * c) l.length - i * c) =
      (l.drop (i * c)).take c := by
  by_cases h : (i + 1) * c ≤ l.length
  · have : min ((i + 1) * c) l.length - i * c = c := by
      rw [Nat.min_eq_left h]
      have : (i + 1) * c = i * c + c := by ring
      omega
    rw [this]
  · have hlen : (l.drop (i * c)).length = l.length - i * c :=
      List.length_drop _ _
    have hmin : min ((i + 1) * c) l.length - i * c = l.length - i * c := by
      rw [Nat.min_eq_right (by omega)]
    rw [hmin, ← hlen, List.take_length]
    have hle : (l.drop (i * c)).length ≤ c := by
      rw [hlen]
      have : (i + 1) * c = i * c + c := by ring
      omega
    rw [List.take_of_length_le hle]

theorem numPdfs_succ (L c : Nat) (hc : 0 < c) (hL : 0 < L) :
    numPdfs L c = numPdfs (L - c) c + 1 := by
  rw [numPdfs, numPdfs]
  have h1 : L + c - 1 = (L - 1) + c := by omega
  rw [h1, Nat.add_div_right _ hc]
  by_cases h : L ≤ c
  · have h2 : L - c = 0 := by omega
    rw [h2]
    have h3 : (L - 1) / c = 0 := Nat.div_eq_of_lt (by omega)
    have h4 : (0 + c - 1) / c = 0 := Nat.div_eq_of_lt (by omega)
    rw [h3, h4]
  · have h2 : L - c + c - 1 = (L - c - 1) + c := by omega
    have h3 : L - 1 = (L - c - 1) + c := by omega
    rw [h2, h3]

theorem joinChunkAt {α : Type} (c : Nat) (hc : 0 < c) (l : List α) :
    ((List.range (numPdfs l.length c)).map
      (fun i => (l.drop (i * c)).take c)).flatten = l := by
  by_cases hL : l.length = 0
  · have hnil : l = [] := List.length_eq_zero.mp hL
    subst hnil
    have : numPdfs 0 c = 0 := Nat.div_eq_of_lt (by omega)
    simp [this]
  · rw [numPdfs_succ l.length c hc (by omega), List.range_succ_eq_map]
    rw [List.map_cons, List.map_map, List.flatten_cons]
    have hdrop0 : (l.drop (0 * c)).take c = l.take c := by simp
    rw [hdrop0]
    have hmaps :
        ((List.range (numPdfs (l.length - c) c)).map
          ((fun i => (l.drop (i * c)).take c) ∘ Nat.succ)) =
        ((List.range (numPdfs (l.length - c) c)).map
          (fun i => ((l.drop c).drop (i * c)).take c)) := by
      apply List.map_congr_left
      intro i _
      simp only [Function.comp_apply]
      have : Nat.succ i * c = c + i * c := by
        rw [Nat.succ_mul, Nat.add_comm]
      rw [this, ← List.drop_drop]
    rw [hmaps]
    have hlen : (l.drop c).length = l.length - c := List.length_drop _ _
    have ih := joinChunkAt c hc (l.drop c)
    rw [hlen] at ih
    rw [ih, List.take_append_drop]
termination_by l.length
decreasing_by
  simp only [List.length_drop]
  omega

/-- C4: for a positive chunk size, the pagination loop of `generatePDF`
yields exactly `ceil(totalFiles / chunkSize)` chunks; the chunks laid end
to end restore the file list (each chunk is the contiguous slice
`[i*chunkSize, min((i+1)*chunkSize, totalFiles))` in original order); and
a chunk carries pagination metadata (1-based chunk number, chunk count,
1-based global start/end indices, total file count) exactly when more than
one chunk results. -/
theorem makeChunks_spec {α : Type} (files : List α) (c : Nat)
    (hc : 0 < c) :
    (makeChunks files c).length = (files.length + c - 1) / c ∧
    ((makeChunks files c).map Prod.fst).flatten = files ∧
    (∀ i (hi : i < (makeChunks files c).length),
      ((makeChunks files c).get ⟨i, hi⟩).1 =
        (files.drop (i * c)).take (min ((i + 1) * c) files.length - i * c) ∧
      ((makeChunks files c).get ⟨i, hi⟩).2 =
        (if 1 < (files.length + c - 1) / c then
          some { current := i + 1, total := (files.length + c - 1) / c,
                 startFile := i * c + 1,
                 endFile := min ((i + 1) * c) files.length,
                 totalFiles := files.length }
         else none)) := by
  refine ⟨by simp [makeChunks, numPdfs], ?_, ?_⟩
  · rw [makeChunks]
    simp only [List.map_map]
    have hcongr :
        ((List.range (numPdfs files.length c)).map
          (Prod.fst ∘ (fun i =>
            ((files.drop (i * c)).take
              (min ((i + 1) * c) files.length - i * c),
             if 1 < numPdfs files.length c then
               some (PartInfo.mk (i + 1) (numPdfs files.length c)
                 (i * c + 1) (min ((i + 1) * c) files.length)
                 files.length)
             else none)))) =
        ((List.range (numPdfs files.length c)).map
          (fun i => (files.drop (i * c)).take c)) := by
      apply List.map_congr_left
      intro i _
      simp only [Function.comp_apply]
      exact chunk_take_collapse files c i
    rw [hcongr]
    exact joinChunkAt c hc files
  · intro i hi
    have hi2 : i < numPdfs files.length c := by
      simpa [makeChunks] using hi
    constructor
    · simp [makeChunks]
    · simp [makeChunks, numPdfs]

/-- Witness for C4 at the spec's example: 120 files in chunks of 50 give
three chunks of sizes 50, 50, 20 with banners 1-50, 51-100, 101-120. -/
theorem makeChunks_spec_witness :
    (makeChunks (List.range 120) 50).length = 3 ∧
    (makeChunks (List.range 120) 50).map (fun ch => ch.1.length) =
      [50, 50, 20] ∧
    (makeChunks (List.range 120) 50).map Prod.snd =
      [some (PartInfo.mk 1 3 1 50 120), some (PartInfo.mk 2 3 51 100 120),
       some (PartInfo.mk 3 3 101 120 120)] :=
  ⟨((makeChunks_spec (List.range 120) 50 (by decide)).1).trans (by decide),
   by decide, by decide⟩

/-! ### C5: tree lines, connectors and indentation -/

theorem treeChildren_enumFrom (root : Entry) (maxB : Nat)
    (fid : List String → String) (dp : List String) (pre : String)
    (cs : List Entry) (n L : Nat) (hn : n + cs.length = L) :
    treeChildren root maxB fid dp pre cs =
      ((cs.enumFrom n).map (fun ie =>
        treeEntry root maxB fid dp pre ie.2
          (decide (ie.1 = L - 1)))).foldr (· ++ ·) "" := by
  induction cs generalizing n with
  | nil => rw [treeChildren]; rfl
  | cons c rest ih =>
    rw [treeChildren, List.enumFrom_cons, List.map_cons, List.foldr_cons]
    have hlast : rest.isEmpty = decide (n = L - 1) := by
      cases rest with
      | nil =>
        simp only [List.length_cons, List.length_nil] at hn
        simp only [List.isEmpty_nil]
        have : n = L - 1 := by omega
        simp [this]
      | cons d ds =>
        simp only [List.length_cons] at hn
        simp only [List.isEmpty_cons]
        have : ¬(n = L - 1) := by omega
        simp [this]
    rw [hlast, ih (n + 1) (by simp at hn ⊢; omega)]

/-- C5: in the tree text of one directory, (a) the output is the
concatenation, in listing order, of one piece per entry whose `isLast`
flag holds exactly at the final position of the raw listing; (b) an entry
rejected by the gitignore resolver contributes the empty string (no line);
(c) a surviving entry's piece starts with the inherited indentation
followed by the corner connector for the last listed sibling and the
branch connector otherwise; (d) a surviving directory entry emits its line
and recurses with the indentation extended by a fixed four-character
unit. -/
theorem treeGen_spec (root : Entry) (maxB : Nat)
    (fid : List String → String) (dp : List String) (pre : String) :
    (∀ cs : List Entry,
      treeChildren root maxB fid dp pre cs =
        ((cs.enum).map (fun ie =>
          treeEntry root maxB fid dp pre ie.2
            (decide (ie.1 = cs.length - 1)))).foldr (· ++ ·) "") ∧
    (∀ (e : Entry) (isLast : Bool),
      shouldIgnore root (dp ++ [entryName e]) = true →
      treeEntry root maxB fid dp pre e isLast = "") ∧
    (∀ (e : Entry) (isLast : Bool),
      shouldIgnore root (dp ++ [entryName e]) = false →
      ∃ rest, treeEntry root maxB fid dp pre e isLast =
        pre ++ (if isLast then "+-- " else "|-- ") ++ rest) ∧
    (∀ (nm : String) (gi : List IgRule) (cs : List Entry) (isLast : Bool),
      shouldIgnore root (dp ++ [nm]) = false →
      treeEntry root maxB fid dp pre (Entry.dir nm gi cs) isLast =
        pre ++ (if isLast then "+-- " else "|-- ") ++ (nm ++ "/\n" ++
          treeChildren root maxB fid (dp ++ [nm])
            (pre ++ (if isLast then "    " else "|   ")) cs) ∧
      (if isLast then "    " else "|   " : String).length = 4) := by
  refine ⟨?_, ?_, ?_, ?_⟩
  · intro cs
    exact treeChildren_enumFrom root maxB fid dp pre cs 0 cs.length
      (Nat.zero_add _)
  · intro e isLast hig
    rw [treeEntry.eq_def]
    simp [hig]
  · intro e isLast hig
    rw [treeEntry.eq_def]
    simp only [hig, Bool.false_eq_true, if_false]
    cases e with
    | dir nm gi cs =>
      exact ⟨nm ++ "/\n" ++ treeChildren root maxB fid (dp ++ [nm])
        (pre ++ (if isLast then "    " else "|   ")) cs,
        by simp [String.append_assoc]⟩
    | file nm sz bn =>
      by_cases hbn : isBinaryFile bn = true
      · exact ⟨nm ++ " (binary, skipped)\n",
          by simp [hbn, String.append_assoc]⟩
      · rw [Bool.not_eq_true] at hbn
        by_cases hsz : sz ≤ maxB
        · exact ⟨"<a href=\"#" ++ fid (dp ++ [nm]) ++ "\">" ++ nm ++ "</a>\n",
            by simp [hbn, hsz, String.append_assoc]⟩
        · exact ⟨nm ++ " (too large, skipped)\n",
            by simp [hbn, hsz, String.append_assoc]⟩
  · intro nm gi cs isLast hig
    constructor
    · rw [treeEntry.eq_def]
      simp only [entryName] at hig ⊢
      simp [hig, String.append_assoc]
    · cases isLast with
      | true => rfl
      | false => rfl

/-- Witness for C5 at a concrete directory listing whose last entry is
ignored: the surviving entry keeps the branch connector. -/
theorem treeGen_spec_witness :
    treeChildren errRoot 100 (fun _ => "I") [] "|   "
      [Entry.file "a.txt" 10 (some false),
       Entry.dir "node_modules" [] []] =
      "|   |-- <a href=\"#I\">a.txt</a>\n" ∧
    treeEntry errRoot 100 (fun _ => "I") [] "|   "
      (Entry.dir "node_modules" [] []) true = "" := by
  constructor
  · rw [(treeGen_spec errRoot 100 (fun _ => "I") [] "|   ").1
      [Entry.file "a.txt" 10 (some false), Entry.dir "node_modules" [] []]]
    decide
  · exact (treeGen_spec errRoot 100 (fun _ => "I") [] "|   ").2.1
      (Entry.dir "node_modules" [] []) true (by decide)

/-! ### C6: LaTeX escaping -/

mutual

/-- Shape invariant of the output of the backslash pass: every backslash
is immediately followed by `t` (the head of `textbackslash...`). -/
def okT : List Char → Bool
  | [] => true
  | x :: xs => if x = '\\' then okTtail xs else okT xs

/-- After a backslash: the next character must be `t`. -/
def okTtail : List Char → Bool
  | [] => false
  | y :: ys => (y == 't') && okT ys

end

theorem okT_block_append (xs : List Char) :
    okT ("\\textbackslash\x7b\x7d".toList ++ xs) = okT xs := by
  have hb : "\\textbackslash\x7b\x7d".toList =
      ['\\', 't', 'e', 'x', 't', 'b', 'a', 'c', 'k', 's', 'l', 'a', 's',
       'h', '\x7b', '\x7d'] := by decide
  rw [hb]
  simp +decide [okT, okTtail]

theorem okT_step1 (s : List Char) :
    okT (replChar '\\' "\\textbackslash\x7b\x7d".toList s) = true := by
  induction s with
  | nil => rfl
  | cons x xs ih =>
    rw [replChar]
    by_cases hx : x = '\\'
    · rw [if_pos hx, okT_block_append, ih]
    · rw [if_neg hx, List.singleton_append, okT, if_neg hx, ih]

theorem mem_replChar (c : Char) (repl l : List Char) (y : Char)
    (hy : y ∈ replChar c repl l) : y ∈ repl ∨ y ∈ l := by
  induction l with
  | nil => simp [replChar] at hy
  | cons x xs ih =>
    rw [replChar] at hy
    rcases List.mem_append.mp hy with h1 | h2
    · by_cases hx : x = c
      · rw [if_pos hx] at h1
        exact Or.inl h1
      · rw [if_neg hx, List.mem_singleton] at h1
        exact Or.inr (h1 ▸ List.mem_cons_self _ _)
    · rcases ih h2 with h3 | h3
      · exact Or.inl h3
      · exact Or.inr (List.mem_cons_of_mem _ h3)

theorem mem_escSpecials (l : List Char) (y : Char)
    (hy : y ∈ escSpecials l) : y = '\\' ∨ y ∈ l := by
  induction l with
  | nil => simp [escSpecials] at hy
  | cons x xs ih =>
    rw [escSpecials] at hy
    rcases List.mem_append.mp hy with h1 | h2
    · by_cases hx : x ∈ latexSpecials
      · rw [if_pos hx] at h1
        rcases List.mem_cons.mp h1 with h3 | h3
        · exact Or.inl h3
        · rw [List.mem_singleton] at h3
          exact Or.inr (h3 ▸ List.mem_cons_self _ _)
      · rw [if_neg hx, List.mem_singleton] at h1
        exact Or.inr (h1 ▸ List.mem_cons_self _ _)
    · rcases ih h2 with h3 | h3
      · exact Or.inl h3
      · exact Or.inr (List.mem_cons_of_mem _ h3)

theorem replChar_id (c : Char) (repl l : List Char)
    (h : ∀ x ∈ l, x ≠ c) : replChar c repl l = l := by
  induction l with
  | nil => rfl
  | cons x xs ih =>
    rw [replChar, if_neg (h x (List.mem_cons_self _ _)),
      List.singleton_append, ih (fun y hy => h y (List.mem_cons_of_mem _ hy))]

theorem noUnescaped_escSpecials_aux (sp : List Char)
    (hsub : ∀ c ∈ sp, c ∈ latexSpecials) :
    ∀ (n : Nat) (l : List Char), l.length ≤ n → okT l = true →
      noUnescaped sp (escSpecials l) = true := by
  intro n
  induction n with
  | zero =>
    intro l hl hok
    have hnil : l = [] := List.eq_nil_of_length_eq_zero (by omega)
    subst hnil
    rfl
  | succ n ih =>
    intro l hl hok
    cases l with
    | nil => rfl
    | cons x xs =>
      rw [escSpecials]
      by_cases hx : x ∈ latexSpecials
      · rw [if_pos hx, List.cons_append, List.cons_append, List.nil_append]
        rw [noUnescaped, if_pos rfl, noUnescapedTail]
        have hxbs : x ≠ '\\' := by
          intro habs
          rw [habs] at hx
          exact absurd hx (by decide)
        apply ih xs (by simp at hl; omega)
        rw [okT, if_neg hxbs] at hok
        exact hok
      · by_cases hbs : x = '\\'
        · subst hbs
          rw [okT, if_pos rfl] at hok
          cases xs with
          | nil =>
            rw [okTtail] at hok
            exact absurd hok (by decide)
          | cons y ys =>
            rw [okTtail, Bool.and_eq_true, beq_iff_eq] at hok
            obtain ⟨rfl, hok2⟩ := hok
            rw [if_neg hx, List.singleton_append, escSpecials,
              if_neg (by decide : ¬('t' : Char) ∈ latexSpecials),
              List.singleton_append]
            rw [noUnescaped, if_pos rfl, noUnescapedTail]
            exact ih ys (by simp at hl; omega) hok2
        · rw [if_neg hx, List.singleton_append, noUnescaped, if_neg hbs]
          have hxsp : ¬x ∈ sp := fun habs => hx (hsub x habs)
          rw [if_neg hxsp]
          apply ih xs (by simp at hl; omega)
          rw [okT, if_neg hbs] at hok
          exact hok

theorem noUnescaped_escSpecials (sp : List Char)
    (hsub : ∀ c ∈ sp, c ∈ latexSpecials) (l : List Char)
    (hok : okT l = true) : noUnescaped sp (escSpecials l) = true :=
  noUnescaped_escSpecials_aux sp hsub l.length l (Nat.le_refl _) hok

/-- C6 counterexample: the claim that `escapeLatex` output contains no
unescaped occurrence of `#`, `$`, `_`, `{`, `}` fails at the input `^`:
the replacement command the escaper inserts for `^` carries a brace pair
that no later pass escapes. -/
theorem escapeLatex_unescaped_brace_cex :
    escapeLatex "^" = "\\textasciicircum\x7b\x7d" ∧
    noUnescaped ['#', '$', '_', '\x7b', '\x7d']
      (escapeLatex "^").toList = false := by decide

/-- C6 amended: for inputs containing none of `^`, `~`, `<`, `>`, `|`
(the characters whose replacement commands append raw brace pairs after
the brace-escaping pass has run), every occurrence of `#`, `$`, `_`, `{`,
`}` in the `escapeLatex` output is preceded by a backslash. -/
theorem escapeLatex_noUnescaped (s : String)
    (h : ∀ ch ∈ s.toList, ch ∉ (['^', '~', '<', '>', '|'] : List Char)) :
    noUnescaped ['#', '$', '_', '\x7b', '\x7d']
      (escapeLatex s).toList = true := by
  rw [escapeLatex]
  set l1 := replChar '\\' "\\textbackslash\x7b\x7d".toList s.toList with hl1
  set l2 := escSpecials l1 with hl2
  have h1 : ∀ x ∈ l1, x ∉ (['^', '~', '<', '>', '|'] : List Char) := by
    intro x hx habs
    rcases mem_replChar _ _ _ x hx with hr | hs
    · fin_cases habs <;> revert hr <;> decide
    · exact h x hs habs
  have h2 : ∀ x ∈ l2, x ∉ (['^', '~', '<', '>', '|'] : List Char) := by
    intro x hx habs
    rcases mem_escSpecials _ x hx with rfl | hmem
    · exact absurd habs (by decide)
    · exact h1 x hmem habs
  have hno : ∀ c : Char, c ∈ (['^', '~', '<', '>', '|'] : List Char) →
      ∀ x ∈ l2, x ≠ c := by
    intro c hc x hx he
    exact h2 x hx (he ▸ hc)
  rw [replChar_id '^' _ _ (hno '^' (by decide)),
    replChar_id '~' _ _ (hno '~' (by decide)),
    replChar_id '<' _ _ (hno '<' (by decide)),
    replChar_id '>' _ _ (hno '>' (by decide)),
    replChar_id '|' _ _ (hno '|' (by decide))]
  show noUnescaped _ l2 = true
  exact noUnescaped_escSpecials _ (by decide) l1 (okT_step1 s.toList)

/-- Witness for the amended C6 at a body using all five claimed special
characters plus a backslash. -/
theorem escapeLatex_noUnescaped_witness :
    noUnescaped ['#', '$', '_', '\x7b', '\x7d']
      (escapeLatex "a#b_\x7bc\x7d$\\d").toList = true :=
  escapeLatex_noUnescaped "a#b_\x7bc\x7d$\\d" (by decide)

/-! ### C8: format dispatch -/

/-- C8 counterexample: `tex` is neither `pdf` nor `latex` after
lowercasing, yet the program does not exit — it selects the LaTeX
pipeline. -/
theorem dispatchFormat_tex_cex :
    toLowerStr "tex" ≠ "pdf" ∧ toLowerStr "tex" ≠ "latex" ∧
    dispatchFormat "tex" = Pipeline.latexOut ∧
    dispatchFormat "tex" ≠ Pipeline.errorExit := by decide

/-- C8 amended: the dispatch exits with an error exactly when the
lowercased format value is none of `pdf`, `latex`, `tex` and the empty
string (which is falsy and falls back to `pdf`); `latex` and `tex` select
the LaTeX emitter and `pdf` (or the empty fallback) the PDF pipeline. -/
theorem dispatchFormat_amended (s : String) :
    (dispatchFormat s = Pipeline.errorExit ↔
      (toLowerStr s ≠ "" ∧ toLowerStr s ≠ "pdf" ∧ toLowerStr s ≠ "latex" ∧
       toLowerStr s ≠ "tex")) ∧
    (dispatchFormat s = Pipeline.latexOut ↔
      (toLowerStr s = "latex" ∨ toLowerStr s = "tex")) ∧
    (dispatchFormat s = Pipeline.pdfOut ↔
      (toLowerStr s = "pdf" ∨ toLowerStr s = "")) := by
  by_cases h0 : toLowerStr s = ""
  · simp +decide [dispatchFormat, h0]
  · by_cases h1 : toLowerStr s = "latex"
    · simp +decide [dispatchFormat, h0, h1]
    · by_cases h2 : toLowerStr s = "tex"
      · simp +decide [dispatchFormat, h0, h2]
      · by_cases h3 : toLowerStr s = "pdf"
        · simp +decide [dispatchFormat, h0, h1, h2, h3]
        · simp +decide [dispatchFormat, h0, h1, h2, h3]

/-- Witness for the amended C8: `docx` is rejected with the error exit. -/
theorem dispatchFormat_amended_witness :
    dispatchFormat "docx" = Pipeline.errorExit :=
  ((dispatchFormat_amended "docx").1).mpr (by decide)

/-! ### C10: one-slash strings always classify as GitHub references -/

/-- C10: a non-existing input of shape `x/y` (exactly one slash, both
segments non-empty and slash-free) is always classified as a GitHub
reference: the bare `owner/repo` regex accepts every such string, and the
two earlier patterns also produce GitHub references, so the final local
fall-back is unreachable for these inputs. -/
theorem parseInput_slash_shape (existsOnFs : String → Bool)
    (input : String) (a b : List Char)
    (hex : existsOnFs input = false)
    (hsplit : splitSlash input.toList = [a, b])
    (ha : a ≠ []) (hb : b ≠ []) :
    ∃ r, parseInput existsOnFs input = InputType.github r := by
  have hmor : matchOwnerRepo input = some input := by
    rw [matchOwnerRepo, hsplit]
    simp [ha, hb]
  rw [parseInput]
  simp only [hex, Bool.false_eq_true, if_false]
  cases hh : matchHttps input with
  | some repo => exact ⟨replaceFirst repo ".git" "", rfl⟩
  | none =>
    cases hs : matchSsh input with
    | some repo => exact ⟨replaceFirst repo ".git" "", rfl⟩
    | none =>
      rw [hmor]
      exact ⟨replaceFirst input ".git" "", rfl⟩

/-- Witness for C10: the mistyped relative path `foo/bar` triggers the
GitHub branch, not the local fall-back. -/
theorem parseInput_slash_shape_witness :
    ∃ r, parseInput (fun _ => false) "foo/bar" = InputType.github r :=
  parseInput_slash_shape (fun _ => false) "foo/bar" "foo".toList
    "bar".toList rfl (by decide) (by decide) (by decide)

end CodeToPdf
